import Mathlib

/-!
Shallow embedding of the plate-loading core of `tbweightcalc`
(`src/tbweightcalc/exercise_set.py`), together with proofs settling the
claims about it.  Weights are modelled as exact rationals; every Python
float that the program manipulates on realistic inputs is a dyadic
rational, so the arithmetic here coincides with the source's.  The inner
`while remaining >= plate` loops of the source subtract a plate as long
as it fits, which for a positive plate denomination is exactly
`(⌊remaining / plate⌋).toNat` subtractions; nonpositive denominations
would make the source loop forever, which is why theorems quantifying
over inventories carry a positivity hypothesis.
-/

/-- Default plate inventory `[45, 35, 25, 15, 10, 5, 2.5]` of the source. -/
def defaultPlates : List ℚ := [45, 35, 25, 15, 10, 5, 2.5]

/-- Insert into a descending list (used to model Python's `sorted(..., reverse=True)`). -/
def insertDesc (x : ℚ) : List ℚ → List ℚ
  | [] => [x]
  | y :: ys => if y ≤ x then x :: y :: ys else y :: insertDesc x ys

/-- Sort a list of rationals in descending order. -/
def sortDesc (l : List ℚ) : List ℚ := l.foldr insertDesc []

/-- Insert into an ascending list (used to model Python's `sorted(...)`). -/
def insertAsc (x : ℚ) : List ℚ → List ℚ
  | [] => [x]
  | y :: ys => if x ≤ y then x :: y :: ys else y :: insertAsc x ys

/-- Sort a list of rationals in ascending order. -/
def sortAsc (l : List ℚ) : List ℚ := l.foldr insertAsc []

/-- Greedy decomposition loop of `get_plate_list`: for each plate in order,
take as many copies as fit into the remaining per-side weight. -/
def greedyGo : List ℚ → ℚ → List ℚ
  | [], _ => []
  | p :: rest, r =>
    let n : ℕ := (⌊r / p⌋).toNat
    List.replicate n p ++ greedyGo rest (r - (n : ℚ) * p)

/-- Embedding of `get_plate_list(total_weight, bar_weight, available_plates)`:
plates needed per side for a given total weight. -/
def getPlateList (total bar : ℚ) (plates : List ℚ) : List ℚ :=
  if total ≤ bar then []
  else greedyGo (sortDesc plates) ((total - bar) / 2)

/-- Embedding of `plates_are_subset(warmup_plates, next_plates)`: every
denomination occurs in the second list at least as often as in the first. -/
def platesAreSubset (a b : List ℚ) : Bool :=
  a.all (fun p => a.count p ≤ b.count p)

/-- Keys of a plate list in first-occurrence order (the iteration order of the
Python `dict` built by `round_up_to_valid_progression`). -/
def keysAux (seen : List ℚ) : List ℚ → List ℚ
  | [] => []
  | p :: rest => if p ∈ seen then keysAux seen rest else p :: keysAux (p :: seen) rest

/-- Embedding of the `(plate, count)` item list `plate_items` built from
`next_plate_count` in `round_up_to_valid_progression`. -/
def plateItems (l : List ℚ) : List (ℚ × ℕ) :=
  (keysAux [] l).map (fun p => (p, l.count p))

/-- Embedding of the recursive generator `generate_subsets(plate_items)`:
all sub-multiset configurations, choosing `0..count` copies of each item. -/
def generateSubsets : List (ℚ × ℕ) → List (List (ℚ × ℕ))
  | [] => [[]]
  | pc :: rest =>
    (List.range (pc.2 + 1)).flatMap (fun k =>
      (generateSubsets rest).map (fun s => if 0 < k then (pc.1, k) :: s else s))

/-- Summed plate weight `sum(subset_plates)` of a subset configuration. -/
def configVal (cfg : List (ℚ × ℕ)) : ℚ :=
  (cfg.map (fun pc => pc.1 * (pc.2 : ℚ))).sum

/-- Total weight `bar_weight + 2.0 * sum(subset_plates)` of a subset configuration. -/
def configWeight (bar : ℚ) (cfg : List (ℚ × ℕ)) : ℚ :=
  bar + 2 * configVal cfg

/-- The multiset of plates described by a `(plate, count)` item list. -/
def itemsMultiset (items : List (ℚ × ℕ)) : Multiset ℚ :=
  (items.map (fun pc => Multiset.replicate pc.2 pc.1)).sum

/-- All candidate total weights built from sub-multisets of a plate list. -/
def candWeights (bar : ℚ) (nextPlates : List ℚ) : List ℚ :=
  (generateSubsets (plateItems nextPlates)).map (configWeight bar)

/-- Spec-side notion (claim C2): a total weight realised by some sub-multiset
of the given plate list, `c = bar_weight + 2 × sum(S)`. -/
def isSubsetWeight (bar : ℚ) (nextPlates : List ℚ) (c : ℚ) : Prop :=
  ∃ S ≤ (nextPlates : Multiset ℚ), c = bar + 2 * S.sum

/-- Spec-side notion (claim C2): an upward candidate, `current ≤ c < next` with
`c − current ≤ max_increase`. -/
def upCandidate (current next bar maxInc : ℚ) (nextPlates : List ℚ) (c : ℚ) : Prop :=
  isSubsetWeight bar nextPlates c ∧ current ≤ c ∧ c < next ∧ c - current ≤ maxInc

/-- Spec-side notion (claim C2): a downward fallback candidate, `c < current`,
`c < next`, and `c ≥ current × 0.5` or `c` is the bare bar. -/
def downCandidate (current next bar : ℚ) (nextPlates : List ℚ) (c : ℚ) : Prop :=
  isSubsetWeight bar nextPlates c ∧ c < current ∧ c < next ∧
    (current * (1/2) ≤ c ∨ c = bar)

/-- One step of the best-candidate scans of the source: keep the incumbent
unless the new candidate satisfies `P` and either there is no incumbent or the
update relation `upd` holds against it. -/
def pickStep (P : ℚ → Prop) [DecidablePred P] (upd : ℚ → ℚ → Prop)
    [∀ a b, Decidable (upd a b)] : Option ℚ → ℚ → Option ℚ
  | none, w => if P w then some w else none
  | some b, w => if P w ∧ upd w b then some w else some b

/-- Best-candidate fold shared by the search loops of the source. -/
def pickBest (P : ℚ → Prop) [DecidablePred P] (upd : ℚ → ℚ → Prop)
    [∀ a b, Decidable (upd a b)] (cs : List ℚ) : Option ℚ :=
  cs.foldl (pickStep P upd) none

/-- Embedding of `round_up_to_valid_progression(current, next, bar, plates,
max_increase)`: if already plate-additive return unchanged, otherwise pick the
upward candidate minimising the increase, else the largest acceptable downward
candidate, else return `current`. -/
def roundUp (current next bar : ℚ) (plates : List ℚ) (maxInc : ℚ) : ℚ :=
  if platesAreSubset (getPlateList current bar plates) (getPlateList next bar plates) then
    current
  else
    let cands := candWeights bar (getPlateList next bar plates)
    match pickBest (fun w => current ≤ w ∧ w < next ∧ w ≤ current + maxInc)
        (fun w b => w - current < b - current) cands with
    | some b => b
    | none =>
      match pickBest (fun w => w < current ∧ w < next ∧ (current * (1/2) ≤ w ∨ w = bar))
          (fun w b => b < w) cands with
      | some b => b
      | none => current

/-- Embedding of the exhaustive search in `ensure_linear_warmup_progression`
(lines 505-515) for the smallest subset weight strictly between `prev` and
`next`. -/
def smallestBetween (bar : ℚ) (plates : List ℚ) (next prevW : ℚ) : Option ℚ :=
  pickBest (fun w => prevW < w ∧ w < next) (fun w b => w < b)
    (candWeights bar (getPlateList next bar plates))

/-- Embedding of the first-warmup fallback (lines 461-469 of
`ensure_linear_warmup_progression`): when the rounder returned the weight
unchanged and this is the first warmup, fall back to bar weight provided the
empty bar-only plate list is a subset of the next plates. -/
def barOnlyFallback (i : ℕ) (adjusted current bar : ℚ) (plates nextPlates : List ℚ) : ℚ :=
  if adjusted = current ∧ i = 0 then
    if platesAreSubset (getPlateList bar bar plates) nextPlates then bar
    else adjusted
  else adjusted

/-- Monotonicity and validity repair applied to the adjusted value `adj1`
(lines 471-538 of `ensure_linear_warmup_progression`): for a non-first warmup
that fell to or below the previous weight, or whose plates are not a valid
subset, search for the smallest subset weight strictly between the previous and
next weight (keeping the original on failure, with Python truthiness of the
candidate); otherwise, when the adjusted value dropped below the previous
weight, reuse the previous weight when it is itself plate-additive. -/
def repairAt (bar : ℚ) (plates : List ℚ) (prevW current next adj1 : ℚ) (i : ℕ) : ℚ :=
  if 0 < i ∧ (adj1 ≤ prevW ∨
      platesAreSubset (getPlateList adj1 bar plates) (getPlateList next bar plates) = false) then
    match smallestBetween bar plates next prevW with
    | some c => if c = 0 then current else c
    | none => current
  else if adj1 < prevW then
    if platesAreSubset (getPlateList prevW bar plates) (getPlateList next bar plates) then prevW
    else adj1
  else adj1

/-- Adjustment of a single position of the weight list, the body of the inner
`for` loop of `ensure_linear_warmup_progression` (lines 426-538): when the
current weight is not plate-additive into the next or exceeds it, clamp
(overshoot) or invoke the rounder, apply the first-warmup bar fallback, and
repair against the previous weight. -/
def adjustAt (bar : ℚ) (plates : List ℚ) (maxInc : ℚ) (prevW current next : ℚ) (i : ℕ) : ℚ :=
  if platesAreSubset (getPlateList current bar plates) (getPlateList next bar plates) = false
      ∨ next < current then
    repairAt bar plates prevW current next
      (barOnlyFallback i
        (if next < current then next else roundUp current next bar plates maxInc)
        current bar plates (getPlateList next bar plates)) i
  else current

/-- One step of the backward scan: adjust index `i`, writing the new value into
the list when it changed (the Python truthiness of `best_candidate` at line 517
is modelled inside `repairAt`). -/
def passStep (bar : ℚ) (plates : List ℚ) (maxInc : ℚ) (all : List ℚ) (i : ℕ) : List ℚ :=
  if adjustAt bar plates maxInc (if 0 < i then all.getD (i - 1) 0 else bar)
      (all.getD i 0) (all.getD (i + 1) 0) i = all.getD i 0 then all
  else all.set i
    (adjustAt bar plates maxInc (if 0 < i then all.getD (i - 1) 0 else bar)
      (all.getD i 0) (all.getD (i + 1) 0) i)

/-- Backward scan over indices `k, k-1, ..., 0`, the inner
`for i in range(len(all_weights) - 2, -1, -1)` loop. -/
def passAux (bar : ℚ) (plates : List ℚ) (maxInc : ℚ) : ℕ → List ℚ → List ℚ
  | 0, all => passStep bar plates maxInc all 0
  | k + 1, all => passAux bar plates maxInc k (passStep bar plates maxInc all (k + 1))

/-- One full pass of the repair loop over the combined weight list. -/
def runPass (bar : ℚ) (plates : List ℚ) (maxInc : ℚ) (all : List ℚ) : List ℚ :=
  if all.length ≤ 1 then all else passAux bar plates maxInc (all.length - 2) all

/-- The `while changed and iteration < max_iterations` driver with its fuel of
10 passes; a pass that makes no change terminates the loop. -/
def ensureLoop (bar : ℚ) (plates : List ℚ) (maxInc : ℚ) : ℕ → List ℚ → List ℚ
  | 0, all => all
  | n + 1, all =>
    let nxt := runPass bar plates maxInc all
    if nxt = all then all else ensureLoop bar plates maxInc n nxt

/-- Embedding of `ensure_linear_warmup_progression(warmup_weights,
working_weight, bar_weight, available_plates, max_increase_per_warmup)`. -/
def ensureLinearWarmupProgression (warmups : List ℚ) (working bar : ℚ)
    (plates : List ℚ) (maxInc : ℚ) : List ℚ :=
  if warmups.isEmpty then []
  else (ensureLoop bar plates maxInc 10 (warmups ++ [working])).dropLast

/-- Python 3 `round`: round half to even. -/
def pythonRound (q : ℚ) : ℤ :=
  if q - ⌊q⌋ < 1/2 then ⌊q⌋
  else if 1/2 < q - ⌊q⌋ then ⌊q⌋ + 1
  else if ⌊q⌋ % 2 = 0 then ⌊q⌋ else ⌊q⌋ + 1

/-- Embedding of `ExerciseSet.round_weight`: `int(5 * round(weight / 5))`. -/
def roundWeight (w : ℚ) : ℚ := ((5 * pythonRound (w / 5) : ℤ) : ℚ)

/-- Initial loop value of `ExerciseSet.calc_plate_breakdown`: round the weight,
subtract the bar when it is exceeded and the bar is used, then halve. -/
def breakdownInit (w bar : ℚ) (usesBar : Bool) : ℚ :=
  let corrected := roundWeight w
  let x := if usesBar = true ∧ bar < corrected then corrected - bar else corrected
  if usesBar = true then x / 2 else x

/-- One iteration of the outer `while weight > 0` loop of
`ExerciseSet.calc_plate_breakdown`: a full scan over the plate denominations,
subtracting each as often as it fits, returning the new remainder. -/
def passRemainder (plates : List ℚ) (r : ℚ) : ℚ :=
  plates.foldl (fun w p => w - ((⌊w / p⌋).toNat : ℚ) * p) r

/-- Phase 1 of `optimize_warmup_weight` (lines 588-609): pre-load the big plate
of the next set when we are close to it, with Python truthiness of
`next_total_weight` and `next_big_plate` modelled as nonzero tests. -/
def preloadPhase (total bar : ℚ) (plates : List ℚ) (nextTW : Option ℚ)
    (bigMin bigSlack : ℚ) : Option ℚ :=
  match nextTW with
  | none => none
  | some nv =>
    if nv ≠ 0 ∧ bar < nv then
      let bigs := (sortAsc plates).filter (fun p => decide (bigMin ≤ p ∧ p ≤ (nv - bar) / 2))
      match bigs.getLast? with
      | none => none
      | some nbp =>
        if nbp ≠ 0 ∧ (total - bar) / 2 < nbp then
          if nbp - (total - bar) / 2 ≤ bigSlack then
            some (roundUp (bar + 2 * nbp) nv bar plates 0)
          else none
        else none
    else none

/-- Phase 2 of `optimize_warmup_weight` (lines 611-635): peel off the largest
denomination, then replace the remainder by a single plate within threshold. -/
def clutterOptimize (total bar : ℚ) (plates : List ℚ) (threshold : ℚ) : ℚ :=
  let sortedPlates := sortAsc plates
  let perSide := (total - bar) / 2
  let largest := sortedPlates.getLastD 0
  let n := (⌊perSide / largest⌋).toNat
  let remainder := perSide - (n : ℚ) * largest
  if 0 < remainder then
    match sortedPlates.find? (fun p => decide (remainder ≤ p)) with
    | some p => if p - remainder ≤ threshold then bar + 2 * ((n : ℚ) * largest + p) else total
    | none => total
  else total

/-- Embedding of `optimize_warmup_weight(total_weight, bar_weight,
available_plates, threshold, next_total_weight, big_plate_min,
big_plate_slack)`. -/
def optimizeWarmupWeight (total bar : ℚ) (plates : List ℚ) (threshold : ℚ)
    (nextTW : Option ℚ) (bigMin bigSlack : ℚ) : ℚ :=
  if total ≤ bar then total
  else if (total - bar) / 2 ≤ 0 then total
  else
    match preloadPhase total bar plates nextTW bigMin bigSlack with
    | some res => res
    | none =>
      let v := clutterOptimize total bar plates threshold
      match nextTW with
      | some nv =>
        if nv ≠ 0 ∧ v < nv then
          if roundUp v nv bar plates 20 = v then v else roundUp v nv bar plates 20
        else v
      | none => v

/-! ### Claim theorems settled purely by evaluation -/

/-- Claim C1, counterexample: on warmups `[95, 100]` with working weight `105`
(default bar, plates and bound) the enforcer returns the list unchanged, yet
the plates of `100` are not a subset of the plates of the working weight `105`,
so the subset invariant fails on the transition into the working weight. -/
theorem ensure_pair_not_subset_cex :
    ensureLinearWarmupProgression [95, 100] 105 45 defaultPlates 30 = [95, 100] ∧
    platesAreSubset (getPlateList 100 45 defaultPlates) (getPlateList 105 45 defaultPlates)
      = false :=
  ⟨by with_unfolding_all decide, by with_unfolding_all decide⟩

/-- Claim C3, counterexample: on warmups `[150, 150]` with working weight `100`
the enforcer returns `[150, 150]`, whose last element exceeds the working
weight, refuting `result[last] ≤ working_weight`. -/
theorem ensure_monotone_cex :
    ensureLinearWarmupProgression [150, 150] 100 45 defaultPlates 30 = [150, 150] ∧
    ¬ ((150 : ℚ) ≤ 100) :=
  ⟨by with_unfolding_all decide, by norm_num⟩

/-- Claim C4, counterexample: on warmups `[220, 100]` with working weight `230`
and bound `30`, the enforcer raises the second warmup from `100` to `225`, an
increase of `125 > 30`, refuting the boundedness claim. -/
theorem ensure_bounded_cex :
    ensureLinearWarmupProgression [220, 100] 230 45 defaultPlates 30 = [135, 225] ∧
    ¬ ((225 : ℚ) - 100 ≤ 30) :=
  ⟨by with_unfolding_all decide, by norm_num⟩

/-- Claim C5, counterexample: at `w = 48 > 45` the decomposition gives the
empty plate list, so the left side is `45`, while `round_weight 48 = 50`; with
the inventory `[45]` and `w = 55` the two sides are `45` and `55`.  The claimed
round-trip identity fails for weights that are not multiples of 5 above the bar
and for inventories whose greedy decomposition leaves a remainder. -/
theorem plate_roundtrip_cex :
    ((45 : ℚ) < 48 ∧ 45 + 2 * (getPlateList 48 45 defaultPlates).sum ≠ roundWeight 48) ∧
    ((45 : ℚ) < 55 ∧ 45 + 2 * (getPlateList 55 45 [45]).sum ≠ roundWeight 55) :=
  ⟨⟨by norm_num, by with_unfolding_all decide⟩, ⟨by norm_num, by with_unfolding_all decide⟩⟩

/-- Claim C7: the decomposition loop of `ExerciseSet.calc_plate_breakdown` does
not stop when no plate fits; its guard `weight > 0` stays true forever.  With
`bar_weight = 33`, `weight = 55` and the default plates, the per-side remainder
after the initialisation is `11`; the first full scan leaves `1` and every
further scan leaves `1` again, so the remainder after any number of iterations
of the outer `while` loop is positive and the loop never terminates, where the
spec requires the loop to stop once the remainder is below the smallest
denomination. -/
theorem breakdown_loop_diverges :
    ∀ n : ℕ, 0 < (passRemainder defaultPlates)^[n] (breakdownInit 55 33 true) := by
  have h0 : breakdownInit 55 33 true = 11 := by with_unfolding_all decide
  have h1 : passRemainder defaultPlates 11 = 1 := by with_unfolding_all decide
  have h2 : passRemainder defaultPlates 1 = 1 := by with_unfolding_all decide
  have key : ∀ n : ℕ, (passRemainder defaultPlates)^[n] (11 : ℚ) = 11 ∨
      (passRemainder defaultPlates)^[n] (11 : ℚ) = 1 := by
    intro n
    induction n with
    | zero => exact Or.inl rfl
    | succ k ih =>
      rw [Function.iterate_succ_apply']
      rcases ih with h | h <;> rw [h]
      · exact Or.inr h1
      · exact Or.inr h2
  intro n
  rw [h0]
  rcases key n with h | h <;> rw [h] <;> norm_num

/-- Claim C8, counterexample: invalid configurations are not rejected at any
boundary; the core functions are entered and return ordinary values.  With an
empty plate inventory the enforcer returns the warmup list unchanged, a
negative weight yields the empty plate list, and a negative bar weight flows
straight through the greedy decomposition. -/
theorem no_fail_fast_cex :
    ensureLinearWarmupProgression [100] 150 45 [] 30 = [100] ∧
    getPlateList (-10) 45 defaultPlates = [] ∧
    getPlateList 100 (-5) defaultPlates = [45, 5, 5/2] :=
  ⟨by with_unfolding_all decide, by with_unfolding_all decide, by with_unfolding_all decide⟩

/-- Claim C9, counterexample: at `total = 100` with `next_total_weight = 105`
the clutter-optimised value is `100` (no phase-2 change), yet the final
progression patch returns `95 < 100`: the patch is accepted merely because it
differs from the clutter-optimised value, so the returned weight can drop below
it, refuting the claim that it never does. -/
theorem optimize_below_clutter_cex :
    clutterOptimize 100 45 defaultPlates (5/2) = 100 ∧
    optimizeWarmupWeight 100 45 defaultPlates (5/2) (some 105) 45 10 = 95 ∧
    (95 : ℚ) < 100 :=
  ⟨by with_unfolding_all decide, by with_unfolding_all decide, by norm_num⟩

/-- Claim C6: `round_up_to_valid_progression` is idempotent on already-valid
inputs: whenever the current weight's plates are a subset of the next weight's
plates it returns the current weight unchanged (the positivity hypothesis on
the inventory reflects that the source's decomposition loops only terminate
for positive denominations). -/
theorem roundUp_idempotent (current next bar maxInc : ℚ) (plates : List ℚ)
    (_hpos : ∀ p ∈ plates, 0 < p)
    (h : platesAreSubset (getPlateList current bar plates) (getPlateList next bar plates)
      = true) :
    roundUp current next bar plates maxInc = current := by
  unfold roundUp
  rw [if_pos h]

/-- Claim C6, witness: `165` (plates `45+15`) into `175` (plates `45+15+5`) is
already plate-additive and is returned unchanged. -/
theorem roundUp_idempotent_witness :
    roundUp 165 175 45 defaultPlates 30 = 165 :=
  roundUp_idempotent 165 175 45 30 defaultPlates (by with_unfolding_all decide)
    (by with_unfolding_all decide)

/-- Claim C10: in `ensure_linear_warmup_progression`, whenever the rounder
returns the first warmup unchanged (`adjusted == current` at index `0`), the
bar-only fallback always fires: `get_plate_list(bar_weight, bar_weight)` is the
empty list, the empty plate list is a subset of every plate list, so the first
warmup is replaced by `bar_weight` — however large the downward change. -/
theorem bar_fallback_always_fires :
    ∀ (current bar : ℚ) (plates nextPlates : List ℚ),
      getPlateList bar bar plates = [] ∧
      platesAreSubset [] nextPlates = true ∧
      barOnlyFallback 0 current current bar plates nextPlates = bar := by
  intro current bar plates nextPlates
  have h1 : getPlateList bar bar plates = [] := by
    unfold getPlateList
    rw [if_pos le_rfl]
  have h2 : platesAreSubset [] nextPlates = true := rfl
  refine ⟨h1, h2, ?_⟩
  unfold barOnlyFallback
  rw [if_pos ⟨rfl, rfl⟩, h1, h2]
  simp

/-- Claim C9, amended: whenever the pre-load phase does not fire, a next total
weight is supplied (nonzero, Python truthiness) and it exceeds the
clutter-optimised value, `optimize_warmup_weight` returns exactly the output of
the progression rounder on the clutter-optimised value with bound 20 — the
patch is accepted whenever it differs from that value, not only when it
improves on it, and it may lie below it. -/
theorem optimize_phase3_accepts_any_change
    (total bar threshold bigMin bigSlack nv : ℚ) (plates : List ℚ)
    (h1 : bar < total)
    (hpre : preloadPhase total bar plates (some nv) bigMin bigSlack = none)
    (hnv : ¬ nv = 0)
    (hlt : clutterOptimize total bar plates threshold < nv) :
    optimizeWarmupWeight total bar plates threshold (some nv) bigMin bigSlack =
      roundUp (clutterOptimize total bar plates threshold) nv bar plates 20 := by
  unfold optimizeWarmupWeight
  rw [if_neg (not_le.mpr h1),
    if_neg (not_le.mpr (div_pos (sub_pos.mpr h1) (by norm_num))), hpre]
  show (if nv ≠ 0 ∧ clutterOptimize total bar plates threshold < nv then
      if roundUp (clutterOptimize total bar plates threshold) nv bar plates 20 =
          clutterOptimize total bar plates threshold then
        clutterOptimize total bar plates threshold
      else roundUp (clutterOptimize total bar plates threshold) nv bar plates 20
    else clutterOptimize total bar plates threshold) =
    roundUp (clutterOptimize total bar plates threshold) nv bar plates 20
  rw [if_pos ⟨hnv, hlt⟩]
  by_cases hr : roundUp (clutterOptimize total bar plates threshold) nv bar plates 20 =
      clutterOptimize total bar plates threshold
  · rw [if_pos hr, hr]
  · rw [if_neg hr]

/-- Claim C9, witness: the amended phase-3 description at the concrete input
`total = 100`, `next = 105` with default parameters. -/
theorem optimize_phase3_accepts_any_change_witness :
    optimizeWarmupWeight 100 45 defaultPlates (5/2) (some 105) 45 10 =
      roundUp (clutterOptimize 100 45 defaultPlates (5/2)) 105 45 defaultPlates 20 :=
  optimize_phase3_accepts_any_change 100 45 (5/2) 45 10 105 defaultPlates
    (by norm_num) (by with_unfolding_all decide) (by norm_num)
    (by with_unfolding_all decide)

/-! ### Properties of the best-candidate fold -/

/-- The fold yields `none` exactly when it started from `none` and no scanned
candidate satisfies the predicate. -/
theorem pickFold_eq_none (P : ℚ → Prop) [DecidablePred P] (upd : ℚ → ℚ → Prop)
    [∀ a b, Decidable (upd a b)] :
    ∀ (cs : List ℚ) (acc : Option ℚ),
      cs.foldl (pickStep P upd) acc = none ↔ acc = none ∧ ∀ w ∈ cs, ¬ P w := by
  intro cs
  induction cs with
  | nil =>
    intro acc
    simp [List.foldl_nil]
  | cons w cs ih =>
    intro acc
    rw [List.foldl_cons, ih]
    constructor
    · rintro ⟨hstep, hall⟩
      have hacc : acc = none ∧ ¬ P w := by
        cases acc with
        | none =>
          refine ⟨rfl, ?_⟩
          intro hPw
          rw [show pickStep P upd none w = if P w then some w else none from rfl,
            if_pos hPw] at hstep
          exact Option.some_ne_none w hstep
        | some b =>
          rw [show pickStep P upd (some b) w = if P w ∧ upd w b then some w else some b
            from rfl] at hstep
          by_cases hc : P w ∧ upd w b
          · rw [if_pos hc] at hstep; exact absurd hstep (Option.some_ne_none w)
          · rw [if_neg hc] at hstep; exact absurd hstep (Option.some_ne_none b)
      refine ⟨hacc.1, ?_⟩
      intro x hx
      rcases List.mem_cons.mp hx with rfl | hx
      · exact hacc.2
      · exact hall x hx
    · rintro ⟨rfl, hall⟩
      have hPw : ¬ P w := hall w (List.mem_cons_self w cs)
      refine ⟨?_, fun x hx => hall x (List.mem_cons_of_mem w hx)⟩
      rw [show pickStep P upd none w = if P w then some w else none from rfl, if_neg hPw]

/-- A `some` result of the fold is either the starting accumulator or some
scanned candidate satisfying the predicate. -/
theorem pickFold_eq_some (P : ℚ → Prop) [DecidablePred P] (upd : ℚ → ℚ → Prop)
    [∀ a b, Decidable (upd a b)] :
    ∀ (cs : List ℚ) (acc : Option ℚ) (b : ℚ),
      cs.foldl (pickStep P upd) acc = some b → acc = some b ∨ (P b ∧ b ∈ cs) := by
  intro cs
  induction cs with
  | nil =>
    intro acc b h
    exact Or.inl h
  | cons w cs ih =>
    intro acc b h
    rw [List.foldl_cons] at h
    rcases ih _ b h with hacc | ⟨hPb, hmem⟩
    · cases acc with
      | none =>
        rw [show pickStep P upd none w = if P w then some w else none from rfl] at hacc
        by_cases hPw : P w
        · rw [if_pos hPw] at hacc
          have hwb : w = b := Option.some_inj.mp hacc
          subst hwb
          exact Or.inr ⟨hPw, List.mem_cons_self w cs⟩
        · rw [if_neg hPw] at hacc
          exact absurd hacc.symm (Option.some_ne_none b)
      | some a =>
        rw [show pickStep P upd (some a) w = if P w ∧ upd w a then some w else some a
          from rfl] at hacc
        by_cases hc : P w ∧ upd w a
        · rw [if_pos hc] at hacc
          have hwb : w = b := Option.some_inj.mp hacc
          subst hwb
          exact Or.inr ⟨hc.1, List.mem_cons_self w cs⟩
        · rw [if_neg hc] at hacc
          exact Or.inl hacc
    · exact Or.inr ⟨hPb, List.mem_cons_of_mem w hmem⟩

/-- When the update relation is `w < b` in a shifted form, the fold computes a
minimum: its result is below every scanned candidate satisfying the predicate
and below the starting accumulator. -/
theorem pickFold_min (P : ℚ → Prop) [DecidablePred P] (upd : ℚ → ℚ → Prop)
    [∀ a b, Decidable (upd a b)] (hupd : ∀ w b, upd w b ↔ w < b) :
    ∀ (cs : List ℚ) (acc : Option ℚ) (b : ℚ),
      cs.foldl (pickStep P upd) acc = some b →
      (∀ a, acc = some a → b ≤ a) ∧ ∀ w ∈ cs, P w → b ≤ w := by
  intro cs
  induction cs with
  | nil =>
    intro acc b h
    refine ⟨?_, by simp⟩
    intro a ha
    rw [ha] at h
    rw [Option.some_inj.mp h]
  | cons w cs ih =>
    intro acc b h
    rw [List.foldl_cons] at h
    have step := ih (pickStep P upd acc w) b h
    have hstep_le : ∀ a, pickStep P upd acc w = some a → b ≤ a := step.1
    have hcs : ∀ x ∈ cs, P x → b ≤ x := step.2
    constructor
    · intro a ha
      subst ha
      rw [show pickStep P upd (some a) w = if P w ∧ upd w a then some w else some a
        from rfl] at hstep_le
      by_cases hc : P w ∧ upd w a
      · have hba := hstep_le w (by rw [if_pos hc])
        exact le_trans hba (le_of_lt ((hupd w a).mp hc.2))
      · exact hstep_le a (by rw [if_neg hc])
    · intro x hx hPx
      rcases List.mem_cons.mp hx with rfl | hx
      · cases acc with
        | none =>
          rw [show pickStep P upd none x = if P x then some x else none from rfl] at hstep_le
          exact hstep_le x (by rw [if_pos hPx])
        | some a =>
          rw [show pickStep P upd (some a) x = if P x ∧ upd x a then some x else some a
            from rfl] at hstep_le
          by_cases hc : P x ∧ upd x a
          · exact hstep_le x (by rw [if_pos hc])
          · have hba := hstep_le a (by rw [if_neg hc])
            have hax : a ≤ x := by
              have := fun h => hc ⟨hPx, (hupd x a).mpr h⟩
              exact le_of_not_lt this
            exact le_trans hba hax
      · exact hcs x hx hPx

/-- When the update relation is `b < w`, the fold computes a maximum. -/
theorem pickFold_max (P : ℚ → Prop) [DecidablePred P] (upd : ℚ → ℚ → Prop)
    [∀ a b, Decidable (upd a b)] (hupd : ∀ w b, upd w b ↔ b < w) :
    ∀ (cs : List ℚ) (acc : Option ℚ) (b : ℚ),
      cs.foldl (pickStep P upd) acc = some b →
      (∀ a, acc = some a → a ≤ b) ∧ ∀ w ∈ cs, P w → w ≤ b := by
  intro cs
  induction cs with
  | nil =>
    intro acc b h
    refine ⟨?_, by simp⟩
    intro a ha
    rw [ha] at h
    rw [Option.some_inj.mp h]
  | cons w cs ih =>
    intro acc b h
    rw [List.foldl_cons] at h
    have step := ih (pickStep P upd acc w) b h
    have hstep_le : ∀ a, pickStep P upd acc w = some a → a ≤ b := step.1
    have hcs : ∀ x ∈ cs, P x → x ≤ b := step.2
    constructor
    · intro a ha
      subst ha
      rw [show pickStep P upd (some a) w = if P w ∧ upd w a then some w else some a
        from rfl] at hstep_le
      by_cases hc : P w ∧ upd w a
      · have hba := hstep_le w (by rw [if_pos hc])
        exact le_trans (le_of_lt ((hupd w a).mp hc.2)) hba
      · exact hstep_le a (by rw [if_neg hc])
    · intro x hx hPx
      rcases List.mem_cons.mp hx with rfl | hx
      · cases acc with
        | none =>
          rw [show pickStep P upd none x = if P x then some x else none from rfl] at hstep_le
          exact hstep_le x (by rw [if_pos hPx])
        | some a =>
          rw [show pickStep P upd (some a) x = if P x ∧ upd x a then some x else some a
            from rfl] at hstep_le
          by_cases hc : P x ∧ upd x a
          · exact hstep_le x (by rw [if_pos hc])
          · have hba := hstep_le a (by rw [if_neg hc])
            have hax : x ≤ a := by
              have := fun h => hc ⟨hPx, (hupd x a).mpr h⟩
              exact le_of_not_lt this
            exact le_trans hax hba
      · exact hcs x hx hPx

/-- Specialisation of `pickFold_eq_some` to `pickBest`. -/
theorem pickBest_eq_some (P : ℚ → Prop) [DecidablePred P] (upd : ℚ → ℚ → Prop)
    [∀ a b, Decidable (upd a b)] (cs : List ℚ) (b : ℚ)
    (h : pickBest P upd cs = some b) : P b ∧ b ∈ cs := by
  rcases pickFold_eq_some P upd cs none b h with hacc | hgood
  · exact absurd hacc.symm (Option.some_ne_none b)
  · exact hgood

/-- Specialisation of `pickFold_eq_none` to `pickBest`. -/
theorem pickBest_eq_none (P : ℚ → Prop) [DecidablePred P] (upd : ℚ → ℚ → Prop)
    [∀ a b, Decidable (upd a b)] (cs : List ℚ)
    (h : pickBest P upd cs = none) : ∀ w ∈ cs, ¬ P w :=
  ((pickFold_eq_none P upd cs none).mp h).2

/-- Claim C4, amended: the increase bound is honoured by
`round_up_to_valid_progression` itself: with a nonnegative `max_increase` its
result exceeds the current weight by at most `max_increase` (the repair search
of `ensure_linear_warmup_progression` between the previous and next weight is
not bounded by `max_increase_per_warmup`, which is what refutes the original
claim). -/
theorem roundUp_bounded_increase (current next bar maxInc : ℚ) (plates : List ℚ)
    (_hpos : ∀ p ∈ plates, 0 < p) (h : 0 ≤ maxInc) :
    roundUp current next bar plates maxInc - current ≤ maxInc := by
  unfold roundUp
  by_cases hs : platesAreSubset (getPlateList current bar plates)
      (getPlateList next bar plates) = true
  · rw [if_pos hs]
    simpa using h
  · rw [if_neg hs]
    rcases hup : pickBest (fun w => current ≤ w ∧ w < next ∧ w ≤ current + maxInc)
        (fun w b => w - current < b - current)
        (candWeights bar (getPlateList next bar plates)) with _ | b
    · rcases hdown : pickBest (fun w => w < current ∧ w < next ∧ (current * (1/2) ≤ w ∨ w = bar))
          (fun w b => b < w)
          (candWeights bar (getPlateList next bar plates)) with _ | b
      · simp only [hup, hdown]
        simpa using h
      · simp only [hup, hdown]
        have hP := (pickBest_eq_some _ _ _ _ hdown).1
        have hb : b - current ≤ 0 := sub_nonpos.mpr (le_of_lt hP.1)
        exact le_trans hb h
    · simp only [hup]
      have hP := (pickBest_eq_some _ _ _ _ hup).1
      exact sub_le_iff_le_add'.mpr hP.2.2

/-- Claim C4, witness: the rounder's bound at the concrete input `185 → 210`
with `max_increase = 30`. -/
theorem roundUp_bounded_increase_witness :
    roundUp 185 210 45 defaultPlates 30 - 185 ≤ 30 :=
  roundUp_bounded_increase 185 210 45 30 defaultPlates (by with_unfolding_all decide)
    (by norm_num)

/-! ### The generated candidates are exactly the sub-multiset weights -/

/-- Membership in the key list gathered in first-occurrence order. -/
theorem keysAux_mem : ∀ (l seen : List ℚ) (q : ℚ),
    q ∈ keysAux seen l ↔ q ∈ l ∧ q ∉ seen := by
  intro l
  induction l with
  | nil => intro seen q; simp [keysAux]
  | cons p rest ih =>
    intro seen q
    unfold keysAux
    by_cases hp : p ∈ seen
    · rw [if_pos hp, ih]
      constructor
      · rintro ⟨hq, hns⟩
        exact ⟨List.mem_cons_of_mem p hq, hns⟩
      · rintro ⟨hq, hns⟩
        rcases List.mem_cons.mp hq with rfl | hq
        · exact absurd hp hns
        · exact ⟨hq, hns⟩
    · rw [if_neg hp]
      constructor
      · intro hq
        rcases List.mem_cons.mp hq with rfl | hq
        · exact ⟨List.mem_cons_self q rest, hp⟩
        · have := (ih (p :: seen) q).mp hq
          refine ⟨List.mem_cons_of_mem p this.1, ?_⟩
          intro hs
          exact this.2 (List.mem_cons_of_mem p hs)
      · rintro ⟨hq, hns⟩
        rcases List.mem_cons.mp hq with rfl | hq
        · exact List.mem_cons_self q _
        · by_cases hqp : q = p
          · subst hqp
            exact List.mem_cons_self q _
          · refine List.mem_cons_of_mem p ((ih (p :: seen) q).mpr ⟨hq, ?_⟩)
            intro hs
            rcases List.mem_cons.mp hs with h | h
            · exact hqp h
            · exact hns h

/-- The key list has no duplicates. -/
theorem keysAux_nodup : ∀ (l seen : List ℚ), (keysAux seen l).Nodup := by
  intro l
  induction l with
  | nil => intro seen; simp [keysAux]
  | cons p rest ih =>
    intro seen
    unfold keysAux
    by_cases hp : p ∈ seen
    · rw [if_pos hp]; exact ih seen
    · rw [if_neg hp]
      refine List.nodup_cons.mpr ⟨?_, ih (p :: seen)⟩
      intro hmem
      exact ((keysAux_mem rest (p :: seen) p).mp hmem).2 (List.mem_cons_self p seen)

/-- Denominations outside the item keys do not occur in the item multiset. -/
theorem itemsMultiset_count_eq_zero (items : List (ℚ × ℕ)) (q : ℚ)
    (h : q ∉ items.map Prod.fst) : (itemsMultiset items).count q = 0 := by
  induction items with
  | nil => rfl
  | cons pc rest ih =>
    have hq1 : ¬ pc.1 = q := by
      intro hq
      exact h (by simp [hq])
    have hrest : q ∉ rest.map Prod.fst := by
      intro hq
      exact h (List.mem_cons_of_mem _ hq)
    unfold itemsMultiset at ih ⊢
    rw [List.map_cons, List.sum_cons, Multiset.count_add, ih hrest,
      Multiset.count_replicate, if_neg hq1]

/-- Counting in the multiset described by distinct keys paired with counts. -/
theorem itemsMultiset_count_map (f : ℚ → ℕ) :
    ∀ (keys : List ℚ), keys.Nodup → ∀ q : ℚ,
      (itemsMultiset (keys.map (fun p => (p, f p)))).count q =
        if q ∈ keys then f q else 0 := by
  intro keys
  induction keys with
  | nil => intro _ q; rfl
  | cons p ks ih =>
    intro hnd q
    have hnd' := List.nodup_cons.mp hnd
    unfold itemsMultiset
    rw [List.map_cons, List.map_cons, List.sum_cons, Multiset.count_add]
    have ihq := ih hnd'.2 q
    unfold itemsMultiset at ihq
    rw [ihq, Multiset.count_replicate]
    by_cases hq : p = q
    · subst hq
      rw [if_pos rfl, if_neg hnd'.1, if_pos (List.mem_cons_self p ks)]
      simp
    · rw [if_neg hq]
      by_cases hqk : q ∈ ks
      · rw [if_pos hqk, if_pos (List.mem_cons_of_mem p hqk)]
        simp
      · rw [if_neg hqk, if_neg (by
          intro hc
          rcases List.mem_cons.mp hc with h | h
          · exact hq h.symm
          · exact hqk h)]

/-- The item list built by `plate_items` describes exactly the multiset of the
original plate list. -/
theorem itemsMultiset_plateItems (l : List ℚ) :
    itemsMultiset (plateItems l) = (l : Multiset ℚ) := by
  ext q
  unfold plateItems
  rw [itemsMultiset_count_map (fun p => l.count p) (keysAux [] l) (keysAux_nodup l []) q,
    Multiset.coe_count]
  by_cases hq : q ∈ l
  · rw [if_pos (by rw [keysAux_mem]; exact ⟨hq, by simp⟩)]
  · rw [if_neg (by rw [keysAux_mem]; intro hc; exact hq hc.1),
      List.count_eq_zero.mpr hq]

/-- Splitting a sub-multiset of `replicate c p + M` along the denomination `p`
that does not occur in `M`. -/
theorem submultiset_split (c : ℕ) (p : ℚ) (M S : Multiset ℚ)
    (hpM : M.count p = 0) (hS : S ≤ Multiset.replicate c p + M) :
    ∃ k ≤ c, ∃ T ≤ M, S = Multiset.replicate k p + T := by
  refine ⟨S.count p, ?_, S.filter (· ≠ p), ?_, ?_⟩
  · have := Multiset.le_iff_count.mp hS p
    rwa [Multiset.count_add, Multiset.count_replicate, if_pos rfl, hpM, add_zero] at this
  · rw [Multiset.le_iff_count]
    intro a
    rw [Multiset.count_filter]
    by_cases ha : a = p
    · rw [if_neg (by simp [ha])]
      exact Nat.zero_le _
    · rw [if_pos ha]
      have := Multiset.le_iff_count.mp hS a
      rwa [Multiset.count_add, Multiset.count_replicate,
        if_neg (fun h => ha h.symm), zero_add] at this
  · ext a
    rw [Multiset.count_add, Multiset.count_replicate, Multiset.count_filter]
    by_cases ha : a = p
    · subst ha
      rw [if_pos rfl, if_neg (by simp), add_zero]
    · rw [if_neg (fun h : p = a => ha h.symm), if_pos ha, zero_add]

/-- Value of a configuration extended (or not) by `k` copies of plate `p`. -/
theorem configVal_extend (p : ℚ) (k : ℕ) (s : List (ℚ × ℕ)) :
    configVal (if 0 < k then (p, k) :: s else s) = (k : ℚ) * p + configVal s := by
  by_cases hk : 0 < k
  · rw [if_pos hk]
    unfold configVal
    rw [List.map_cons, List.sum_cons, mul_comm]
  · rw [if_neg hk]
    have : k = 0 := Nat.eq_zero_of_not_pos hk
    subst this
    rw [Nat.cast_zero, zero_mul, zero_add]

/-- The values generated by `generate_subsets` over an item list with distinct
keys are exactly the sums of sub-multisets of the described multiset. -/
theorem generateSubsets_sum : ∀ (items : List (ℚ × ℕ)),
    (items.map Prod.fst).Nodup → ∀ v : ℚ,
      ((∃ cfg ∈ generateSubsets items, v = configVal cfg) ↔
        ∃ S ≤ itemsMultiset items, v = S.sum) := by
  intro items
  induction items with
  | nil =>
    intro _ v
    constructor
    · rintro ⟨cfg, hcfg, rfl⟩
      rw [show generateSubsets [] = [[]] from rfl] at hcfg
      rcases List.mem_singleton.mp hcfg with rfl
      exact ⟨0, le_refl _, rfl⟩
    · rintro ⟨S, hS, rfl⟩
      have : S = 0 := le_antisymm hS (Multiset.zero_le S)
      subst this
      exact ⟨[], List.mem_singleton.mpr rfl, rfl⟩
  | cons pc rest ih =>
    intro hnd v
    rw [List.map_cons, List.nodup_cons] at hnd
    have hkey : pc.1 ∉ rest.map Prod.fst := hnd.1
    have hrest := ih hnd.2
    have hcount : (itemsMultiset rest).count pc.1 = 0 :=
      itemsMultiset_count_eq_zero rest pc.1 hkey
    constructor
    · rintro ⟨cfg, hcfg, rfl⟩
      rw [show generateSubsets (pc :: rest) =
          (List.range (pc.2 + 1)).flatMap (fun k =>
            (generateSubsets rest).map (fun s => if 0 < k then (pc.1, k) :: s else s))
        from rfl] at hcfg
      rcases List.mem_flatMap.mp hcfg with ⟨k, hk, hcfg⟩
      rcases List.mem_map.mp hcfg with ⟨s, hs, rfl⟩
      have hk' : k ≤ pc.2 := Nat.lt_succ_iff.mp (List.mem_range.mp hk)
      rcases (hrest (configVal s)).mp ⟨s, hs, rfl⟩ with ⟨T, hT, hTs⟩
      refine ⟨Multiset.replicate k pc.1 + T, ?_, ?_⟩
      · unfold itemsMultiset
        rw [List.map_cons, List.sum_cons]
        exact add_le_add ((Multiset.replicate_le_replicate pc.1).mpr hk') hT
      · rw [configVal_extend, Multiset.sum_add, Multiset.sum_replicate, nsmul_eq_mul, hTs]
    · rintro ⟨S, hS, rfl⟩
      have hS' : S ≤ Multiset.replicate pc.2 pc.1 + itemsMultiset rest := by
        unfold itemsMultiset at hS
        rwa [List.map_cons, List.sum_cons] at hS
      rcases submultiset_split pc.2 pc.1 (itemsMultiset rest) S hcount hS' with
        ⟨k, hk, T, hT, rfl⟩
      rcases (hrest T.sum).mpr ⟨T, hT, rfl⟩ with ⟨s, hs, hsv⟩
      refine ⟨if 0 < k then (pc.1, k) :: s else s, ?_, ?_⟩
      · rw [show generateSubsets (pc :: rest) =
            (List.range (pc.2 + 1)).flatMap (fun k =>
              (generateSubsets rest).map (fun s => if 0 < k then (pc.1, k) :: s else s))
          from rfl]
        exact List.mem_flatMap.mpr ⟨k, List.mem_range.mpr (Nat.lt_succ_of_le hk),
          List.mem_map.mpr ⟨s, hs, rfl⟩⟩
      · rw [configVal_extend, Multiset.sum_add, Multiset.sum_replicate, nsmul_eq_mul, hsv]

/-- Membership in the generated candidate weights is existence of a
sub-multiset of the plate list with the corresponding total weight. -/
theorem mem_candWeights (bar : ℚ) (L : List ℚ) (c : ℚ) :
    c ∈ candWeights bar L ↔ ∃ S ≤ (L : Multiset ℚ), c = bar + 2 * S.sum := by
  have hnd : ((plateItems L).map Prod.fst).Nodup := by
    unfold plateItems
    rw [List.map_map]
    have hcomp : (Prod.fst ∘ fun p : ℚ => (p, L.count p)) = fun p : ℚ => p := rfl
    rw [hcomp, List.map_id']
    exact keysAux_nodup L []
  unfold candWeights
  rw [List.mem_map]
  constructor
  · rintro ⟨cfg, hcfg, rfl⟩
    rcases (generateSubsets_sum (plateItems L) hnd (configVal cfg)).mp
        ⟨cfg, hcfg, rfl⟩ with ⟨S, hS, hSv⟩
    rw [itemsMultiset_plateItems] at hS
    exact ⟨S, hS, by rw [configWeight, hSv]⟩
  · rintro ⟨S, hS, rfl⟩
    rw [← itemsMultiset_plateItems L] at hS
    rcases (generateSubsets_sum (plateItems L) hnd S.sum).mpr ⟨S, hS, rfl⟩ with
      ⟨cfg, hcfg, hv⟩
    exact ⟨cfg, hcfg, by rw [configWeight, hv]⟩

/-! ### Claim C2: the rounder as an optimisation problem -/

/-- Unfolding of `roundUp` when the upward scan succeeds. -/
theorem roundUp_up_some (current next bar maxInc : ℚ) (plates : List ℚ) (b : ℚ)
    (hsub : platesAreSubset (getPlateList current bar plates) (getPlateList next bar plates)
      = false)
    (hup : pickBest (fun w => current ≤ w ∧ w < next ∧ w ≤ current + maxInc)
        (fun w b => w - current < b - current)
        (candWeights bar (getPlateList next bar plates)) = some b) :
    roundUp current next bar plates maxInc = b := by
  unfold roundUp
  rw [if_neg (by rw [hsub]; simp)]
  simp only [hup]

/-- Unfolding of `roundUp` when only the downward scan succeeds. -/
theorem roundUp_down_some (current next bar maxInc : ℚ) (plates : List ℚ) (b : ℚ)
    (hsub : platesAreSubset (getPlateList current bar plates) (getPlateList next bar plates)
      = false)
    (hup : pickBest (fun w => current ≤ w ∧ w < next ∧ w ≤ current + maxInc)
        (fun w b => w - current < b - current)
        (candWeights bar (getPlateList next bar plates)) = none)
    (hdown : pickBest (fun w => w < current ∧ w < next ∧ (current * (1/2) ≤ w ∨ w = bar))
        (fun w b => b < w)
        (candWeights bar (getPlateList next bar plates)) = some b) :
    roundUp current next bar plates maxInc = b := by
  unfold roundUp
  rw [if_neg (by rw [hsub]; simp)]
  simp only [hup, hdown]

/-- Unfolding of `roundUp` when both scans fail. -/
theorem roundUp_both_none (current next bar maxInc : ℚ) (plates : List ℚ)
    (hsub : platesAreSubset (getPlateList current bar plates) (getPlateList next bar plates)
      = false)
    (hup : pickBest (fun w => current ≤ w ∧ w < next ∧ w ≤ current + maxInc)
        (fun w b => w - current < b - current)
        (candWeights bar (getPlateList next bar plates)) = none)
    (hdown : pickBest (fun w => w < current ∧ w < next ∧ (current * (1/2) ≤ w ∨ w = bar))
        (fun w b => b < w)
        (candWeights bar (getPlateList next bar plates)) = none) :
    roundUp current next bar plates maxInc = current := by
  unfold roundUp
  rw [if_neg (by rw [hsub]; simp)]
  simp only [hup, hdown]

/-- Upward candidates of the claim are exactly the generated candidates
satisfying the upward filter of the code. -/
theorem upCandidate_iff (current next bar maxInc : ℚ) (plates : List ℚ) (c : ℚ) :
    upCandidate current next bar maxInc (getPlateList next bar plates) c ↔
      c ∈ candWeights bar (getPlateList next bar plates) ∧
        (current ≤ c ∧ c < next ∧ c ≤ current + maxInc) := by
  unfold upCandidate isSubsetWeight
  rw [← mem_candWeights]
  constructor
  · rintro ⟨hmem, h1, h2, h3⟩
    exact ⟨hmem, h1, h2, sub_le_iff_le_add'.mp h3⟩
  · rintro ⟨hmem, h1, h2, h3⟩
    exact ⟨hmem, h1, h2, sub_le_iff_le_add'.mpr h3⟩

/-- Downward candidates of the claim are exactly the generated candidates
satisfying the downward filter of the code. -/
theorem downCandidate_iff (current next bar : ℚ) (plates : List ℚ) (c : ℚ) :
    downCandidate current next bar (getPlateList next bar plates) c ↔
      c ∈ candWeights bar (getPlateList next bar plates) ∧
        (c < current ∧ c < next ∧ (current * (1/2) ≤ c ∨ c = bar)) := by
  unfold downCandidate isSubsetWeight
  rw [← mem_candWeights]

/-- Claim C2: when the current weight is not yet plate-additive into the next
weight, `round_up_to_valid_progression` returns, among all sub-multisets of the
next weight's plate list, the candidate `current ≤ c < next` within
`max_increase` minimising `c − current`; failing that, the largest downward
candidate `c < current, c < next` not below half the current weight (or exactly
the bar); failing that, the current weight unchanged. -/
theorem roundUp_optimal (current next bar maxInc : ℚ) (plates : List ℚ)
    (_hpos : ∀ p ∈ plates, 0 < p)
    (hsub : platesAreSubset (getPlateList current bar plates) (getPlateList next bar plates)
      = false) :
    ((∃ c, upCandidate current next bar maxInc (getPlateList next bar plates) c) →
      upCandidate current next bar maxInc (getPlateList next bar plates)
          (roundUp current next bar plates maxInc) ∧
        ∀ c, upCandidate current next bar maxInc (getPlateList next bar plates) c →
          roundUp current next bar plates maxInc - current ≤ c - current) ∧
    ((¬ ∃ c, upCandidate current next bar maxInc (getPlateList next bar plates) c) →
      (∃ c, downCandidate current next bar (getPlateList next bar plates) c) →
      downCandidate current next bar (getPlateList next bar plates)
          (roundUp current next bar plates maxInc) ∧
        ∀ c, downCandidate current next bar (getPlateList next bar plates) c →
          c ≤ roundUp current next bar plates maxInc) ∧
    ((¬ ∃ c, upCandidate current next bar maxInc (getPlateList next bar plates) c) →
      (¬ ∃ c, downCandidate current next bar (getPlateList next bar plates) c) →
      roundUp current next bar plates maxInc = current) := by
  rcases hup : pickBest (fun w => current ≤ w ∧ w < next ∧ w ≤ current + maxInc)
      (fun w b => w - current < b - current)
      (candWeights bar (getPlateList next bar plates)) with _ | b
  · have hnoup : ¬ ∃ c, upCandidate current next bar maxInc
        (getPlateList next bar plates) c := by
      rintro ⟨c, hc⟩
      rcases (upCandidate_iff current next bar maxInc plates c).mp hc with ⟨hmem, hP⟩
      exact pickBest_eq_none _ _ _ hup c hmem hP
    rcases hdown : pickBest (fun w => w < current ∧ w < next ∧ (current * (1/2) ≤ w ∨ w = bar))
        (fun w b => b < w)
        (candWeights bar (getPlateList next bar plates)) with _ | b
    · have hnodown : ¬ ∃ c, downCandidate current next bar
          (getPlateList next bar plates) c := by
        rintro ⟨c, hc⟩
        rcases (downCandidate_iff current next bar plates c).mp hc with ⟨hmem, hP⟩
        exact pickBest_eq_none _ _ _ hdown c hmem hP
      refine ⟨fun hex => absurd hex hnoup, fun _ hex => absurd hex hnodown, fun _ _ => ?_⟩
      exact roundUp_both_none current next bar maxInc plates hsub hup hdown
    · have hr := roundUp_down_some current next bar maxInc plates b hsub hup hdown
      have hbP := pickBest_eq_some _ _ _ b hdown
      have hmax := (pickFold_max _ _ (fun _ _ => Iff.rfl) _ none b hdown).2
      refine ⟨fun hex => absurd hex hnoup, fun _ _ => ?_, fun _ hnone => ?_⟩
      · constructor
        · rw [hr]
          exact (downCandidate_iff current next bar plates b).mpr ⟨hbP.2, hbP.1⟩
        · intro c hc
          rcases (downCandidate_iff current next bar plates c).mp hc with ⟨hmem, hP⟩
          rw [hr]
          exact hmax c hmem hP
      · exact absurd ⟨b, (downCandidate_iff current next bar plates b).mpr
          ⟨hbP.2, hbP.1⟩⟩ hnone
  · have hr := roundUp_up_some current next bar maxInc plates b hsub hup
    have hbP := pickBest_eq_some _ _ _ b hup
    have hmin := (pickFold_min _ _ (fun w b => sub_lt_sub_iff_right current) _ none b hup).2
    have hup_b : upCandidate current next bar maxInc (getPlateList next bar plates) b :=
      (upCandidate_iff current next bar maxInc plates b).mpr ⟨hbP.2, hbP.1⟩
    refine ⟨fun _ => ⟨by rw [hr]; exact hup_b, ?_⟩, fun hnone _ => ?_, fun hnone _ => ?_⟩
    · intro c hc
      rcases (upCandidate_iff current next bar maxInc plates c).mp hc with ⟨hmem, hP⟩
      rw [hr]
      exact sub_le_sub_right (hmin c hmem hP) current
    · exact absurd ⟨b, hup_b⟩ hnone
    · exact absurd ⟨b, hup_b⟩ hnone

/-- Claim C2, witness: at `185 → 210` (default bar and plates, bound 30) the
rounder's result is an upward candidate minimising the increase; `205`
witnesses that an upward candidate exists. -/
theorem roundUp_optimal_witness :
    upCandidate 185 210 45 30 (getPlateList 210 45 defaultPlates)
        (roundUp 185 210 45 defaultPlates 30) ∧
      ∀ c, upCandidate 185 210 45 30 (getPlateList 210 45 defaultPlates) c →
        roundUp 185 210 45 defaultPlates 30 - 185 ≤ c - 185 :=
  (roundUp_optimal 185 210 45 30 defaultPlates (by with_unfolding_all decide)
    (by with_unfolding_all decide)).1
    ⟨205, ⟨(↑([45, 35] : List ℚ) : Multiset ℚ), by with_unfolding_all decide,
      by with_unfolding_all decide⟩, by norm_num, by norm_num, by norm_num⟩

/-! ### Greedy decomposition: remainder arithmetic -/

/-- The empty plate scan leaves the remainder unchanged. -/
theorem passRemainder_nil (r : ℚ) : passRemainder [] r = r := rfl

/-- Unfolding of one plate of the scan. -/
theorem passRemainder_cons (p : ℚ) (rest : List ℚ) (r : ℚ) :
    passRemainder (p :: rest) r = passRemainder rest (r - ((⌊r / p⌋).toNat : ℚ) * p) := rfl

/-- The floor count cast to the rationals, for nonnegative remainders. -/
theorem floor_count_cast (p r : ℚ) (hp : 0 < p) (hr : 0 ≤ r) :
    ((⌊r / p⌋).toNat : ℚ) = ((⌊r / p⌋ : ℤ) : ℚ) := by
  have h := Int.toNat_of_nonneg (Int.floor_nonneg.mpr (div_nonneg hr (le_of_lt hp)))
  exact_mod_cast congrArg (fun z : ℤ => (z : ℚ)) h

/-- Taking out as many copies as fit leaves a nonnegative remainder. -/
theorem stepRem_nonneg (p r : ℚ) (hp : 0 < p) (hr : 0 ≤ r) :
    0 ≤ r - ((⌊r / p⌋).toNat : ℚ) * p := by
  rw [floor_count_cast p r hp hr, sub_nonneg]
  calc ((⌊r / p⌋ : ℤ) : ℚ) * p ≤ (r / p) * p :=
        mul_le_mul_of_nonneg_right (Int.floor_le _) (le_of_lt hp)
    _ = r := div_mul_cancel₀ r (ne_of_gt hp)

/-- Taking out as many copies as fit leaves a remainder below the plate. -/
theorem stepRem_lt (p r : ℚ) (hp : 0 < p) (hr : 0 ≤ r) :
    r - ((⌊r / p⌋).toNat : ℚ) * p < p := by
  rw [floor_count_cast p r hp hr, sub_lt_iff_lt_add]
  have h := Int.lt_floor_add_one (r / p)
  calc r = (r / p) * p := (div_mul_cancel₀ r (ne_of_gt hp)).symm
    _ < ((⌊r / p⌋ : ℚ) + 1) * p := by
        exact mul_lt_mul_of_pos_right h hp
    _ = p + (⌊r / p⌋ : ℚ) * p := by ring

/-- The scan step never increases the remainder (for a positive plate). -/
theorem stepRem_le (p r : ℚ) (hp : 0 < p) :
    r - ((⌊r / p⌋).toNat : ℚ) * p ≤ r := by
  have : (0 : ℚ) ≤ ((⌊r / p⌋).toNat : ℚ) * p :=
    mul_nonneg (by positivity) (le_of_lt hp)
  linarith

/-- A full scan keeps the remainder nonnegative and never increases it. -/
theorem passRemainder_nonneg_le : ∀ (plates : List ℚ) (r : ℚ),
    (∀ p ∈ plates, 0 < p) → 0 ≤ r →
    0 ≤ passRemainder plates r ∧ passRemainder plates r ≤ r := by
  intro plates
  induction plates with
  | nil => intro r _ hr; exact ⟨hr, le_refl r⟩
  | cons p rest ih =>
    intro r hpos hr
    have hp : 0 < p := hpos p (List.mem_cons_self p rest)
    have hrest : ∀ q ∈ rest, 0 < q := fun q hq => hpos q (List.mem_cons_of_mem p hq)
    rw [passRemainder_cons]
    have h0 := stepRem_nonneg p r hp hr
    have hle := stepRem_le p r hp
    rcases ih (r - ((⌊r / p⌋).toNat : ℚ) * p) hrest h0 with ⟨ha, hb⟩
    exact ⟨ha, le_trans hb hle⟩

/-- After scanning past a plate denomination the remainder is below it. -/
theorem passRemainder_lt_of_mem : ∀ (plates : List ℚ) (q r : ℚ),
    (∀ p ∈ plates, 0 < p) → q ∈ plates → 0 ≤ r → passRemainder plates r < q := by
  intro plates
  induction plates with
  | nil => intro q r _ hq _; exact absurd hq (List.not_mem_nil q)
  | cons p rest ih =>
    intro q r hpos hq hr
    have hp : 0 < p := hpos p (List.mem_cons_self p rest)
    have hrest : ∀ x ∈ rest, 0 < x := fun x hx => hpos x (List.mem_cons_of_mem p hx)
    rw [passRemainder_cons]
    have h0 := stepRem_nonneg p r hp hr
    rcases List.mem_cons.mp hq with rfl | hq
    · have hlt := stepRem_lt q r hp hr
      have := (passRemainder_nonneg_le rest _ hrest h0).2
      exact lt_of_le_of_lt this hlt
    · exact ih q _ hrest hq h0

/-- A full scan preserves the property of being an integer multiple of `5/2`
when every denomination is one. -/
theorem passRemainder_mult : ∀ (plates : List ℚ) (r : ℚ),
    (∀ p ∈ plates, ∃ m : ℤ, p = m * (5/2)) → (∃ k : ℤ, r = k * (5/2)) →
    ∃ k : ℤ, passRemainder plates r = k * (5/2) := by
  intro plates
  induction plates with
  | nil => intro r _ hk; exact hk
  | cons p rest ih =>
    intro r hm hk
    rcases hm p (List.mem_cons_self p rest) with ⟨m, hmp⟩
    rcases hk with ⟨k, hkr⟩
    rw [passRemainder_cons]
    refine ih _ (fun q hq => hm q (List.mem_cons_of_mem p hq)) ?_
    refine ⟨k - ((⌊r / p⌋).toNat : ℤ) * m, ?_⟩
    rw [hkr, hmp]
    push_cast
    ring

/-- The plates taken by the greedy loop sum to the input minus the remainder
left by a full scan. -/
theorem greedyGo_sum_eq : ∀ (plates : List ℚ) (r : ℚ),
    (greedyGo plates r).sum = r - passRemainder plates r := by
  intro plates
  induction plates with
  | nil => intro r; simp [greedyGo, passRemainder_nil]
  | cons p rest ih =>
    intro r
    show (List.replicate ((⌊r / p⌋).toNat) p ++
        greedyGo rest (r - (((⌊r / p⌋).toNat : ℕ) : ℚ) * p)).sum = _
    rw [List.sum_append, List.sum_replicate, nsmul_eq_mul, ih, passRemainder_cons]
    ring

/-- Greedy decomposition over the default plates consumes any nonnegative
multiple of `5/2` completely. -/
theorem greedy_consume_default (r : ℚ) (h0 : 0 ≤ r) (hm : ∃ k : ℤ, r = k * (5/2)) :
    (greedyGo defaultPlates r).sum = r := by
  rw [greedyGo_sum_eq]
  have hpos : ∀ p ∈ defaultPlates, 0 < p := by
    intro p hp
    fin_cases hp <;> norm_num
  have hmem : (5/2 : ℚ) ∈ defaultPlates := by
    show (5/2 : ℚ) ∈ [45, 35, 25, 15, 10, 5, 2.5]
    have : (2.5 : ℚ) = 5/2 := by norm_num
    rw [← this]
    simp
  have hlt := passRemainder_lt_of_mem defaultPlates (5/2) r hpos hmem h0
  have hge := (passRemainder_nonneg_le defaultPlates r hpos h0).1
  have hmults : ∀ p ∈ defaultPlates, ∃ m : ℤ, p = m * (5/2) := by
    intro p hp
    fin_cases hp
    · exact ⟨18, by norm_num⟩
    · exact ⟨14, by norm_num⟩
    · exact ⟨10, by norm_num⟩
    · exact ⟨6, by norm_num⟩
    · exact ⟨4, by norm_num⟩
    · exact ⟨2, by norm_num⟩
    · exact ⟨1, by norm_num⟩
  rcases passRemainder_mult defaultPlates r hmults hm with ⟨k, hk⟩
  rw [hk] at hlt hge
  have hk1 : (k : ℚ) < 1 := by nlinarith
  have hk0 : (0 : ℚ) ≤ (k : ℚ) := by nlinarith
  have : k = 0 := by
    have h1 : k < 1 := by exact_mod_cast hk1
    have h2 : 0 ≤ k := by exact_mod_cast hk0
    omega
  rw [hk, this]
  push_cast
  ring

/-- Claim C5, amended: the decomposition round-trip identity
`bar + 2 × sum(get_plate_list(w, bar, plates)) = round_weight(w)` holds for the
default plate inventory whenever `w > bar` and both `w` and `w − bar` are
multiples of 5 (the counterexamples force exactly these restrictions: a weight
not a multiple of 5 above the bar is rounded by `round_weight` but not by the
greedy decomposition, and a sparse inventory leaves a remainder). -/
theorem plate_roundtrip_multiple_of_five (w bar : ℚ) (hbar : bar < w)
    (hw : ∃ k : ℤ, w = 5 * k) (hd : ∃ k : ℤ, w - bar = 5 * k) :
    bar + 2 * (getPlateList w bar defaultPlates).sum = roundWeight w := by
  have hsort : sortDesc defaultPlates = defaultPlates := by with_unfolding_all decide
  unfold getPlateList
  rw [if_neg (not_le.mpr hbar), hsort]
  have hr0 : 0 ≤ (w - bar) / 2 := div_nonneg (le_of_lt (sub_pos.mpr hbar)) (by norm_num)
  have hmult : ∃ k : ℤ, (w - bar) / 2 = k * (5/2) := by
    rcases hd with ⟨k, hk⟩
    exact ⟨k, by rw [show w - bar = 5 * k from hk]; ring⟩
  rw [greedy_consume_default _ hr0 hmult]
  have hlhs : bar + 2 * ((w - bar) / 2) = w := by ring
  rw [hlhs]
  rcases hw with ⟨k, hk⟩
  unfold roundWeight pythonRound
  have hq : w / 5 = (k : ℚ) := by rw [hk]; field_simp
  rw [hq, Int.floor_intCast]
  rw [if_pos (by simp)]
  rw [hk]
  push_cast
  ring

/-- Claim C5, witness: the round-trip at `w = 135`, `bar = 45`. -/
theorem plate_roundtrip_witness :
    45 + 2 * (getPlateList 135 45 defaultPlates).sum = roundWeight 135 :=
  plate_roundtrip_multiple_of_five 135 45 (by norm_num) ⟨27, by norm_num⟩ ⟨18, by norm_num⟩

/-! ### Subset check and greedy structure lemmas -/

/-- The Boolean subset check agrees with the multiset order. -/
theorem platesAreSubset_iff (a b : List ℚ) :
    platesAreSubset a b = true ↔ (↑a : Multiset ℚ) ≤ ↑b := by
  unfold platesAreSubset
  rw [List.all_eq_true, Multiset.le_iff_count]
  constructor
  · intro h q
    rw [Multiset.coe_count, Multiset.coe_count]
    by_cases hq : q ∈ a
    · exact of_decide_eq_true (h q hq)
    · rw [List.count_eq_zero.mpr hq]
      exact Nat.zero_le _
  · intro h q hq
    apply decide_eq_true
    have := h q
    rwa [Multiset.coe_count, Multiset.coe_count] at this

/-- The subset check is reflexive. -/
theorem platesAreSubset_refl (a : List ℚ) : platesAreSubset a a = true :=
  (platesAreSubset_iff a a).mpr (le_refl _)

/-- The empty plate list is a subset of every plate list. -/
theorem platesAreSubset_nil (b : List ℚ) : platesAreSubset [] b = true := rfl

/-- Weights at or below the bar decompose to the empty plate list. -/
theorem getPlateList_of_le (total bar : ℚ) (plates : List ℚ) (h : total ≤ bar) :
    getPlateList total bar plates = [] := by
  unfold getPlateList
  rw [if_pos h]

/-- Every plate returned by the greedy loop comes from the inventory. -/
theorem greedy_mem : ∀ (plates : List ℚ) (r x : ℚ), x ∈ greedyGo plates r → x ∈ plates := by
  intro plates
  induction plates with
  | nil => intro r x hx; exact absurd hx (List.not_mem_nil x)
  | cons p rest ih =>
    intro r x hx
    rcases List.mem_append.mp hx with hx | hx
    · rw [List.eq_of_mem_replicate hx]
      exact List.mem_cons_self p rest
    · exact List.mem_cons_of_mem p (ih _ x hx)

/-- The greedy loop takes out at most the available weight. -/
theorem greedy_sum_le (plates : List ℚ) (r : ℚ) (hpos : ∀ p ∈ plates, 0 < p)
    (hr : 0 ≤ r) : (greedyGo plates r).sum ≤ r := by
  rw [greedyGo_sum_eq]
  have := (passRemainder_nonneg_le plates r hpos hr).1
  linarith

/-- Unfolding of the greedy loop at a cons cell. -/
theorem greedyGo_cons (p : ℚ) (rest : List ℚ) (r : ℚ) :
    greedyGo (p :: rest) r =
      List.replicate ((⌊r / p⌋).toNat) p ++
        greedyGo rest (r - (((⌊r / p⌋).toNat : ℕ) : ℚ) * p) := rfl

/-- Key structural fact behind the linear-progression algorithm: for a
positive, strictly descending inventory, re-decomposing the summed weight of
any sub-multiset of a greedy decomposition yields a sub-multiset of that
decomposition (the candidate weights produced from subsets of the next set's
plates are themselves plate-additive into the next set). -/
theorem greedy_sub_le : ∀ (plates : List ℚ), (∀ p ∈ plates, 0 < p) →
    plates.Pairwise (· > ·) → ∀ (r : ℚ), 0 ≤ r → ∀ S : Multiset ℚ,
    S ≤ ↑(greedyGo plates r) →
    (↑(greedyGo plates S.sum) : Multiset ℚ) ≤ ↑(greedyGo plates r) := by
  intro plates
  induction plates with
  | nil =>
    intro _ _ r _ S hS
    have : S = 0 := le_antisymm hS (Multiset.zero_le S)
    subst this
    simp [greedyGo]
  | cons p rest ih =>
    intro hpos hpair r hr S hS
    have hp : 0 < p := hpos p (List.mem_cons_self p rest)
    have hrestpos : ∀ q ∈ rest, 0 < q := fun q hq => hpos q (List.mem_cons_of_mem p hq)
    have hpairrest : rest.Pairwise (· > ·) := (List.pairwise_cons.mp hpair).2
    have hpgt : ∀ q ∈ rest, p > q := (List.pairwise_cons.mp hpair).1
    set n : ℕ := (⌊r / p⌋).toNat with hn
    set r' : ℚ := r - (n : ℚ) * p with hr'
    have hr'0 : 0 ≤ r' := stepRem_nonneg p r hp hr
    have hr'p : r' < p := stepRem_lt p r hp hr
    set T : List ℚ := greedyGo rest r' with hT
    have hsplit : greedyGo (p :: rest) r = List.replicate n p ++ T := rfl
    have hpT : Multiset.count p (↑T : Multiset ℚ) = 0 := by
      rw [Multiset.coe_count]
      rw [List.count_eq_zero]
      intro hmem
      have := hpgt p (greedy_mem rest r' p hmem)
      exact lt_irrefl p this
    have hS' : S ≤ Multiset.replicate n p + ↑T := by
      rw [hsplit] at hS
      rwa [show (↑(List.replicate n p ++ T) : Multiset ℚ) =
        Multiset.replicate n p + ↑T by
          rw [← Multiset.coe_add, Multiset.coe_replicate]] at hS
    rcases submultiset_split n p (↑T) S hpT hS' with ⟨j, hj, T', hT', hSdef⟩
    have hT'pos : ∀ x ∈ T', 0 < x := by
      intro x hx
      have hxT : x ∈ (↑T : Multiset ℚ) := Multiset.mem_of_le hT' hx
      rw [Multiset.mem_coe] at hxT
      exact hrestpos x (greedy_mem rest r' x hxT)
    have hT'sum0 : 0 ≤ T'.sum :=
      Multiset.sum_nonneg (fun x hx => le_of_lt (hT'pos x hx))
    have hT'sum_lt : T'.sum < p := by
      rcases Multiset.le_iff_exists_add.mp hT' with ⟨u, hu⟩
      have husum : (↑T : Multiset ℚ).sum = T'.sum + u.sum := by rw [hu, Multiset.sum_add]
      have hu0 : 0 ≤ u.sum := by
        refine Multiset.sum_nonneg ?_
        intro x hx
        have hxT : x ∈ (↑T : Multiset ℚ) := by rw [hu]; exact Multiset.mem_add.mpr (Or.inr hx)
        rw [Multiset.mem_coe] at hxT
        exact le_of_lt (hrestpos x (greedy_mem rest r' x hxT))
      have hTsum : (↑T : Multiset ℚ).sum = T.sum := Multiset.sum_coe T
      have hTle : T.sum ≤ r' := greedy_sum_le rest r' hrestpos hr'0
      have : T'.sum ≤ T.sum := by rw [← hTsum, husum]; linarith
      exact lt_of_le_of_lt this (lt_of_le_of_lt hTle hr'p)
    have hSsum : S.sum = (j : ℚ) * p + T'.sum := by
      rw [hSdef, Multiset.sum_add, Multiset.sum_replicate, nsmul_eq_mul]
    have hfloor : (⌊S.sum / p⌋).toNat = j := by
      have hdiv : S.sum / p = (j : ℚ) + T'.sum / p := by
        rw [hSsum]
        field_simp
      have hfr0 : 0 ≤ T'.sum / p := div_nonneg hT'sum0 (le_of_lt hp)
      have hfr1 : T'.sum / p < 1 := (div_lt_one hp).mpr hT'sum_lt
      have : ⌊S.sum / p⌋ = (j : ℤ) := by
        rw [hdiv]
        rw [show ((j : ℚ) + T'.sum / p) = ((j : ℤ) : ℚ) + T'.sum / p by push_cast; ring]
        rw [Int.floor_int_add]
        rw [Int.floor_eq_zero_iff.mpr ⟨hfr0, hfr1⟩]
        ring
      rw [this]
      exact Int.toNat_natCast j
    have hgoal : greedyGo (p :: rest) S.sum =
        List.replicate j p ++ greedyGo rest T'.sum := by
      rw [greedyGo_cons, hfloor,
        show S.sum - ((j : ℕ) : ℚ) * p = T'.sum by rw [hSsum]; ring]
    rw [hgoal, hsplit]
    rw [show (↑(List.replicate j p ++ greedyGo rest T'.sum) : Multiset ℚ) =
      Multiset.replicate j p + ↑(greedyGo rest T'.sum) by
        rw [← Multiset.coe_add, Multiset.coe_replicate]]
    rw [show (↑(List.replicate n p ++ T) : Multiset ℚ) =
      Multiset.replicate n p + ↑T by
        rw [← Multiset.coe_add, Multiset.coe_replicate]]
    exact add_le_add ((Multiset.replicate_le_replicate p).mpr hj)
      (ih hrestpos hpairrest r' hr'0 T' hT')

/-! ### Behaviour of the rounder and of one adjustment at index 0 -/

/-- In the non-subset branch the rounder returns either the current weight
unchanged or some sub-multiset weight strictly below the next weight. -/
theorem roundUp_cases (current next bar maxInc : ℚ) (plates : List ℚ)
    (hsub : platesAreSubset (getPlateList current bar plates) (getPlateList next bar plates)
      = false) :
    roundUp current next bar plates maxInc = current ∨
      (isSubsetWeight bar (getPlateList next bar plates)
          (roundUp current next bar plates maxInc) ∧
        roundUp current next bar plates maxInc < next) := by
  rcases hup : pickBest (fun w => current ≤ w ∧ w < next ∧ w ≤ current + maxInc)
      (fun w b => w - current < b - current)
      (candWeights bar (getPlateList next bar plates)) with _ | b
  · rcases hdown : pickBest (fun w => w < current ∧ w < next ∧ (current * (1/2) ≤ w ∨ w = bar))
        (fun w b => b < w)
        (candWeights bar (getPlateList next bar plates)) with _ | b
    · exact Or.inl (roundUp_both_none current next bar maxInc plates hsub hup hdown)
    · right
      rw [roundUp_down_some current next bar maxInc plates b hsub hup hdown]
      have hbP := pickBest_eq_some _ _ _ b hdown
      refine ⟨?_, hbP.1.2.1⟩
      rcases (mem_candWeights bar (getPlateList next bar plates) b).mp hbP.2 with ⟨S, hS, hv⟩
      exact ⟨S, hS, hv⟩
  · right
    rw [roundUp_up_some current next bar maxInc plates b hsub hup]
    have hbP := pickBest_eq_some _ _ _ b hup
    refine ⟨?_, hbP.1.2.1⟩
    rcases (mem_candWeights bar (getPlateList next bar plates) b).mp hbP.2 with ⟨S, hS, hv⟩
    exact ⟨S, hS, hv⟩

/-- A sub-multiset weight is at least the bar weight when the plate list has
nonnegative entries. -/
theorem subsetWeight_ge_bar (bar : ℚ) (np : List ℚ) (hnp : ∀ x ∈ np, 0 ≤ x) (c : ℚ)
    (h : isSubsetWeight bar np c) : bar ≤ c := by
  rcases h with ⟨S, hS, rfl⟩
  have h0 : 0 ≤ S.sum := by
    refine Multiset.sum_nonneg ?_
    intro x hx
    have := Multiset.mem_of_le hS hx
    rw [Multiset.mem_coe] at this
    exact hnp x this
  linarith

/-- Plates of a decomposed weight all come from the default inventory. -/
theorem mem_getPlateList_default (total x : ℚ)
    (hx : x ∈ getPlateList total 45 defaultPlates) : x ∈ defaultPlates := by
  unfold getPlateList at hx
  by_cases h : total ≤ 45
  · rw [if_pos h] at hx
    exact absurd hx (List.not_mem_nil x)
  · rw [if_neg h, show sortDesc defaultPlates = defaultPlates by with_unfolding_all decide]
      at hx
    exact greedy_mem defaultPlates _ x hx

/-- Core consequence of `greedy_sub_le` for the default inventory: any
sub-multiset weight of a decomposition re-decomposes to a plate subset. -/
theorem subsetWeight_plates_le (W c : ℚ)
    (h : isSubsetWeight 45 (getPlateList W 45 defaultPlates) c) :
    platesAreSubset (getPlateList c 45 defaultPlates) (getPlateList W 45 defaultPlates)
      = true := by
  rcases h with ⟨S, hS, rfl⟩
  have hsort : sortDesc defaultPlates = defaultPlates := by with_unfolding_all decide
  have hpos : ∀ p ∈ defaultPlates, 0 < p := by
    intro p hp
    fin_cases hp <;> norm_num
  have hpair : defaultPlates.Pairwise (· > ·) := by
    unfold defaultPlates
    norm_num
  by_cases hc : 45 + 2 * S.sum ≤ 45
  · rw [getPlateList_of_le _ _ _ hc]
    exact platesAreSubset_nil _
  · by_cases hW : W ≤ 45
    · rw [getPlateList_of_le W 45 defaultPlates hW] at hS
      have : S = 0 := le_antisymm hS (Multiset.zero_le S)
      subst this
      exact absurd (by norm_num : (45 : ℚ) + 2 * (0 : Multiset ℚ).sum ≤ 45) hc
    · unfold getPlateList at hS ⊢
      rw [if_neg hW, hsort] at hS
      rw [if_neg hc, if_neg hW, hsort]
      have hper : (0 : ℚ) ≤ (W - 45) / 2 := by
        have : (45 : ℚ) < W := not_le.mp hW
        linarith
      have hred : (45 + 2 * S.sum - 45) / 2 = S.sum := by ring
      rw [hred]
      rw [platesAreSubset_iff]
      exact greedy_sub_le defaultPlates hpos hpair ((W - 45) / 2) hper S hS

/-- The bar fallback leaves a changed adjustment alone. -/
theorem barOnlyFallback_ne (i : ℕ) (adjusted current bar : ℚ) (plates np : List ℚ)
    (h : ¬ adjusted = current) :
    barOnlyFallback i adjusted current bar plates np = adjusted := by
  unfold barOnlyFallback
  rw [if_neg (fun hc => h hc.1)]

/-- The bar fallback at index 0 on an unchanged adjustment yields the bar. -/
theorem barOnlyFallback_self (current bar : ℚ) (plates np : List ℚ) :
    barOnlyFallback 0 current current bar plates np = bar := by
  unfold barOnlyFallback
  rw [if_pos ⟨rfl, rfl⟩, getPlateList_of_le bar bar plates le_rfl, platesAreSubset_nil]
  simp

/-- At index 0 the between-search branch of the repair step is dead. -/
theorem repairAt_zero (bar : ℚ) (plates : List ℚ) (prevW current next adj1 : ℚ) :
    repairAt bar plates prevW current next adj1 0 =
      if adj1 < prevW then
        if platesAreSubset (getPlateList prevW bar plates) (getPlateList next bar plates)
          then prevW else adj1
      else adj1 := by
  unfold repairAt
  rw [if_neg (fun hc => lt_irrefl 0 hc.1)]

/-- No adjustment happens at a position that is already plate-additive and
monotone. -/
theorem adjustAt_of_ok (bar : ℚ) (plates : List ℚ) (maxInc prevW current next : ℚ) (i : ℕ)
    (hsub : platesAreSubset (getPlateList current bar plates) (getPlateList next bar plates)
      = true)
    (hle : current ≤ next) :
    adjustAt bar plates maxInc prevW current next i = current := by
  unfold adjustAt
  rw [if_neg]
  rintro (hf | hlt)
  · rw [hsub] at hf
    cases hf
  · exact absurd hle (not_le.mpr hlt)

/-- Clamping case at index 0: an overshoot is clamped to the next weight, or
raised back to the bar when the next weight is below the bar. -/
theorem adjustAt_zero_clamp (bar : ℚ) (plates : List ℚ) (maxInc current next : ℚ)
    (hlt : next < current) :
    adjustAt bar plates maxInc bar current next 0 =
      if next < bar then bar else next := by
  unfold adjustAt
  rw [if_pos (Or.inr hlt), if_pos hlt,
    barOnlyFallback_ne 0 next current bar plates _ (ne_of_lt hlt), repairAt_zero]
  by_cases hnb : next < bar
  · rw [if_pos hnb, if_pos hnb,
      getPlateList_of_le bar bar plates le_rfl, platesAreSubset_nil, if_pos rfl]
  · rw [if_neg hnb, if_neg hnb]

/-- Rounder case at index 0 where the rounder moved the weight: the adjusted
value is the rounder's output, provided it did not drop below the bar. -/
theorem adjustAt_zero_roundup (bar : ℚ) (plates : List ℚ) (maxInc current next : ℚ)
    (hsub : platesAreSubset (getPlateList current bar plates) (getPlateList next bar plates)
      = false)
    (hnlt : ¬ next < current)
    (hne : ¬ roundUp current next bar plates maxInc = current)
    (hge : bar ≤ roundUp current next bar plates maxInc) :
    adjustAt bar plates maxInc bar current next 0 =
      roundUp current next bar plates maxInc := by
  unfold adjustAt
  rw [if_pos (Or.inl hsub), if_neg hnlt,
    barOnlyFallback_ne 0 _ current bar plates _ hne, repairAt_zero,
    if_neg (not_lt.mpr hge)]

/-- Rounder case at index 0 where the rounder returned the weight unchanged:
the bar-only fallback fires and the adjusted value is the bar weight. -/
theorem adjustAt_zero_roundup_self (bar : ℚ) (plates : List ℚ) (maxInc current next : ℚ)
    (hsub : platesAreSubset (getPlateList current bar plates) (getPlateList next bar plates)
      = false)
    (hnlt : ¬ next < current)
    (heq : roundUp current next bar plates maxInc = current) :
    adjustAt bar plates maxInc bar current next 0 = bar := by
  unfold adjustAt
  rw [if_pos (Or.inl hsub), if_neg hnlt, heq, barOnlyFallback_self, repairAt_zero,
    if_neg (lt_irrefl bar)]

/-! ### The repair loop on a single warmup -/

/-- A pass over a two-element list is a single adjustment at index 0. -/
theorem runPass_pair (bar : ℚ) (plates : List ℚ) (maxInc x y : ℚ) :
    runPass bar plates maxInc [x, y] =
      if adjustAt bar plates maxInc bar x y 0 = x then [x, y]
      else [adjustAt bar plates maxInc bar x y 0, y] := rfl

/-- Unfolding of the driver loop at a successor fuel value. -/
theorem ensureLoop_succ (bar : ℚ) (plates : List ℚ) (maxInc : ℚ) (n : ℕ) (all : List ℚ) :
    ensureLoop bar plates maxInc (n + 1) all =
      if runPass bar plates maxInc all = all then all
      else ensureLoop bar plates maxInc n (runPass bar plates maxInc all) := rfl

/-- A fixed point of the pass is returned unchanged by the driver loop. -/
theorem ensureLoop_fix (bar : ℚ) (plates : List ℚ) (maxInc : ℚ) (n : ℕ) (all : List ℚ)
    (h : runPass bar plates maxInc all = all) :
    ensureLoop bar plates maxInc n all = all := by
  cases n with
  | zero => rfl
  | succ m => rw [ensureLoop_succ, if_pos h]

/-- The enforcer on a single warmup: if the first pass adjusts `w` to `e` and
`e` is stable, the result is `[e]`. -/
theorem ensure_pair_result (w W e : ℚ)
    (h1 : adjustAt 45 defaultPlates 30 45 w W 0 = e)
    (h2 : adjustAt 45 defaultPlates 30 45 e W 0 = e) :
    ensureLinearWarmupProgression [w] W 45 defaultPlates 30 = [e] := by
  have hfix2 : runPass 45 defaultPlates 30 [e, W] = [e, W] := by
    rw [runPass_pair, if_pos h2]
  show (ensureLoop 45 defaultPlates 30 10 [w, W]).dropLast = [e]
  by_cases hew : e = w
  · subst hew
    rw [ensureLoop_fix 45 defaultPlates 30 10 [e, W] hfix2]
    rfl
  · have hch : runPass 45 defaultPlates 30 [w, W] = [e, W] := by
      rw [runPass_pair, h1, if_neg hew]
    rw [show (10 : ℕ) = 9 + 1 from rfl, ensureLoop_succ, hch, if_neg (by
      intro hc
      injection hc with hc1 hc2
      exact hew hc1)]
    rw [ensureLoop_fix 45 defaultPlates 30 9 [e, W] hfix2]
    rfl

/-- Case analysis of the enforcer on a single warmup (default parameters): the
result is a one-element list whose entry is plate-additive into the working
weight, and bounded by the working weight whenever that is at least the bar. -/
theorem ensure_single_cases (w W : ℚ) :
    ∃ e : ℚ,
      ensureLinearWarmupProgression [w] W 45 defaultPlates 30 = [e] ∧
      platesAreSubset (getPlateList e 45 defaultPlates)
        (getPlateList W 45 defaultPlates) = true ∧
      (45 ≤ W → e ≤ W) := by
  have hnp0 : ∀ x ∈ getPlateList W 45 defaultPlates, (0 : ℚ) ≤ x := by
    intro x hx
    have hmem := mem_getPlateList_default W x hx
    fin_cases hmem <;> norm_num
  by_cases hWw : W < w
  · by_cases hW45 : W < 45
    · refine ⟨45, ?_, ?_, ?_⟩
      · apply ensure_pair_result
        · rw [adjustAt_zero_clamp 45 defaultPlates 30 w W hWw, if_pos hW45]
        · rw [adjustAt_zero_clamp 45 defaultPlates 30 45 W hW45, if_pos hW45]
      · rw [getPlateList_of_le 45 45 defaultPlates le_rfl]
        exact platesAreSubset_nil _
      · intro h45
        exact absurd h45 (not_le.mpr hW45)
    · refine ⟨W, ?_, platesAreSubset_refl _, fun _ => le_refl W⟩
      apply ensure_pair_result
      · rw [adjustAt_zero_clamp 45 defaultPlates 30 w W hWw, if_neg hW45]
      · exact adjustAt_of_ok 45 defaultPlates 30 45 W W 0 (platesAreSubset_refl _) (le_refl W)
  · have hwW : w ≤ W := not_lt.mp hWw
    by_cases hsub : platesAreSubset (getPlateList w 45 defaultPlates)
        (getPlateList W 45 defaultPlates) = true
    · refine ⟨w, ?_, hsub, fun _ => hwW⟩
      apply ensure_pair_result
      · exact adjustAt_of_ok 45 defaultPlates 30 45 w W 0 hsub hwW
      · exact adjustAt_of_ok 45 defaultPlates 30 45 w W 0 hsub hwW
    · have hsubf : platesAreSubset (getPlateList w 45 defaultPlates)
          (getPlateList W 45 defaultPlates) = false := by
        cases hX : platesAreSubset (getPlateList w 45 defaultPlates)
            (getPlateList W 45 defaultPlates)
        · rfl
        · exact absurd hX hsub
      have h45w : (45 : ℚ) < w := by
        by_contra hle
        rw [getPlateList_of_le w 45 defaultPlates (not_lt.mp hle), platesAreSubset_nil]
          at hsubf
        cases hsubf
      have h45W : (45 : ℚ) < W := lt_of_lt_of_le h45w hwW
      rcases roundUp_cases w W 45 30 defaultPlates hsubf with heq | ⟨hsw, hlt⟩
      · refine ⟨45, ?_, ?_, fun _ => le_of_lt h45W⟩
        · apply ensure_pair_result
          · exact adjustAt_zero_roundup_self 45 defaultPlates 30 w W hsubf hWw heq
          · refine adjustAt_of_ok 45 defaultPlates 30 45 45 W 0 ?_ (le_of_lt h45W)
            rw [getPlateList_of_le 45 45 defaultPlates le_rfl]
            exact platesAreSubset_nil _
        · rw [getPlateList_of_le 45 45 defaultPlates le_rfl]
          exact platesAreSubset_nil _
      · have hsubR : platesAreSubset
            (getPlateList (roundUp w W 45 defaultPlates 30) 45 defaultPlates)
            (getPlateList W 45 defaultPlates) = true :=
          subsetWeight_plates_le W _ hsw
        have hgeR : (45 : ℚ) ≤ roundUp w W 45 defaultPlates 30 :=
          subsetWeight_ge_bar 45 _ hnp0 _ hsw
        by_cases hRw : roundUp w W 45 defaultPlates 30 = w
        · rw [hRw] at hsubR
          rw [hsubf] at hsubR
          cases hsubR
        · refine ⟨roundUp w W 45 defaultPlates 30, ?_, hsubR, fun _ => le_of_lt hlt⟩
          apply ensure_pair_result
          · exact adjustAt_zero_roundup 45 defaultPlates 30 w W hsubf hWw hRw hgeR
          · exact adjustAt_of_ok 45 defaultPlates 30 45 _ W 0 hsubR (le_of_lt hlt)

/-- Claim C1, amended: the subset invariant holds unconditionally for
single-warmup lists: the enforcer's output on `[w]` with working weight `W`
(default bar, plates, bound) is a single weight whose plate list is a subset of
the working weight's plate list — for longer lists the enforcer can leave a
non-additive pair in place when no bounded repair exists, which is what refutes
the original claim. -/
theorem ensure_single_subset_invariant (w W : ℚ) :
    platesAreSubset
      (getPlateList ((ensureLinearWarmupProgression [w] W 45 defaultPlates 30).headI)
        45 defaultPlates)
      (getPlateList W 45 defaultPlates) = true := by
  rcases ensure_single_cases w W with ⟨e, he, hsub, _⟩
  rw [he]
  exact hsub

/-- Claim C3, amended: monotonicity holds for single-warmup lists whenever the
working weight is at least the bar weight: the enforcer's output on `[w]` never
exceeds the working weight.  With several warmups a weight above the working
weight may be left unrepaired (the counterexample), and a working weight below
the bar weight is overridden by the bar fallback. -/
theorem ensure_single_le_working (w W : ℚ) (hW : 45 ≤ W) :
    (ensureLinearWarmupProgression [w] W 45 defaultPlates 30).headI ≤ W := by
  rcases ensure_single_cases w W with ⟨e, he, _, hle⟩
  rw [he]
  exact hle hW

/-- Claim C3, witness: the single-warmup monotonicity bound at `w = 95`,
`W = 105`. -/
theorem ensure_single_le_working_witness :
    (ensureLinearWarmupProgression [95] 105 45 defaultPlates 30).headI ≤ 105 :=
  ensure_single_le_working 95 105 (by norm_num)

/-! ### Claim C8: the core is total on invalid configurations -/

/-- With an empty inventory every decomposition is the empty plate list. -/
theorem getPlateList_empty (w bar : ℚ) : getPlateList w bar [] = [] := by
  unfold getPlateList
  by_cases h : w ≤ bar
  · rw [if_pos h]
  · rw [if_neg h]
    rfl

/-- A pass step that does not adjust leaves the list unchanged. -/
theorem passStep_id (bar : ℚ) (plates : List ℚ) (maxInc : ℚ) (all : List ℚ) (i : ℕ)
    (h : adjustAt bar plates maxInc (if 0 < i then all.getD (i - 1) 0 else bar)
      (all.getD i 0) (all.getD (i + 1) 0) i = all.getD i 0) :
    passStep bar plates maxInc all i = all := by
  unfold passStep
  rw [if_pos h]

/-- A backward scan all of whose steps do not adjust leaves the list
unchanged. -/
theorem passAux_id (bar : ℚ) (plates : List ℚ) (maxInc : ℚ) (all : List ℚ) :
    ∀ k : ℕ, (∀ i, i ≤ k → passStep bar plates maxInc all i = all) →
      passAux bar plates maxInc k all = all := by
  intro k
  induction k with
  | zero => intro h; exact h 0 (le_refl 0)
  | succ m ih =>
    intro h
    show passAux bar plates maxInc m (passStep bar plates maxInc all (m + 1)) = all
    rw [h (m + 1) (le_refl _)]
    exact ih (fun i hi => h i (Nat.le_succ_of_le hi))

/-- Claim C8, amended: no fail-fast validation exists at any boundary; the
core is entered with invalid configurations and is total on them.  With an
empty plate inventory every decomposition is empty, every step is vacuously
plate-additive, and the enforcer returns any monotone warmup list unchanged
instead of raising an error. -/
theorem core_total_on_invalid_config :
    (∀ w bar : ℚ, getPlateList w bar [] = []) ∧
    ∀ (l : List ℚ) (W : ℚ),
      (∀ i, i < (l ++ [W]).length - 1 →
        (l ++ [W]).getD i 0 ≤ (l ++ [W]).getD (i + 1) 0) →
      ensureLinearWarmupProgression l W 45 [] 30 = l := by
  refine ⟨getPlateList_empty, ?_⟩
  intro l W hmono
  unfold ensureLinearWarmupProgression
  by_cases hl : l.isEmpty
  · rw [if_pos hl]
    cases l with
    | nil => rfl
    | cons a as => cases hl
  · rw [if_neg hl]
    have hfix : runPass 45 [] 30 (l ++ [W]) = l ++ [W] := by
      unfold runPass
      by_cases hlen : (l ++ [W]).length ≤ 1
      · rw [if_pos hlen]
      · rw [if_neg hlen]
        apply passAux_id
        intro i hi
        apply passStep_id
        apply adjustAt_of_ok
        · rw [getPlateList_empty, getPlateList_empty]
          exact platesAreSubset_nil []
        · apply hmono
          omega
    rw [ensureLoop_fix _ _ _ _ _ hfix]
    rw [List.dropLast_concat]

/-- Claim C8, witness: the enforcer returns the monotone list `[50, 60]`
unchanged under the empty inventory instead of failing fast. -/
theorem core_total_on_invalid_config_witness :
    ensureLinearWarmupProgression [50, 60] 70 45 [] 30 = [50, 60] :=
  core_total_on_invalid_config.2 [50, 60] 70 (by with_unfolding_all decide)
